import Mathlib

/-!
Verification of the symbex core (`symbex/lib.py`) against its natural-language
specification.  The Python module is shallowly embedded below: Python strings
are Lean `String`s (or `List Char` where character-level scanning is needed),
`ast` nodes are inductive types, and every fallible operation is explicit
(`Option`/`Except`).  Each definition is translated from the source file,
function by function; spec-side definitions (used for refinement statements)
carry a `_spec` suffix.
-/

set_option autoImplicit false

namespace Symbex

/-! ### Python values

Results of `ast.literal_eval` on the literal shapes the renderer meets, plus
the value formatting (`str`/`repr`) and truthiness used by
`function_definition`. -/

/-- Python value produced by `ast.literal_eval` on a default-expression
literal: ints, bools, `None`, strings, tuples and lists of these. -/
inductive PyVal where
  | int (n : Int)
  | bool (b : Bool)
  | none
  | str (s : String)
  | tuple (elts : List PyVal)
  | list (elts : List PyVal)
deriving Repr

mutual

/-- Python `repr` of a value (element formatting inside tuple/list displays;
string escaping inside `repr` of a `str` is not needed by any claim and is
modelled as plain single quotes). -/
def pyRepr : PyVal → String
  | .int n => toString n
  | .bool b => if b then "True" else "False"
  | .none => "None"
  | .str s => "'" ++ s ++ "'"
  | .tuple elts => "(" ++ pyReprSeq elts ++ (if elts.length = 1 then ",)" else ")")
  | .list elts => "[" ++ pyReprSeq elts ++ "]"

/-- Comma-separated `repr`s of a sequence of values. -/
def pyReprSeq : List PyVal → String
  | [] => ""
  | [v] => pyRepr v
  | v :: rest => pyRepr v ++ ", " ++ pyReprSeq rest

end

/-- Python `str` of a value, as used by the f-string `f"{arg_str}={default}"`:
identical to `repr` except on strings, which print unquoted. -/
def pyStr : PyVal → String
  | .str s => s
  | v => pyRepr v

/-- Python truthiness of a value, as used by `if default:`. -/
def pyTruthy : PyVal → Bool
  | .int n => n != 0
  | .bool b => b
  | .none => false
  | .str s => s != ""
  | .tuple elts => !elts.isEmpty
  | .list elts => !elts.isEmpty

/-! ### Python expressions

The `ast` expression shapes that `symbex/lib.py` inspects.  Every other
shape (`Attribute`, `Call`, `Lambda`, ...) is collapsed into `other`, which
records the `ast` class name; the code never looks inside such nodes, it only
ever falls through to a default (`"?"`, `"..."`, or `str(node)`). -/

/-- Expression node of the Python `ast` as consumed by the renderer. -/
inductive PyExpr where
  | name (id : String)
  | constant (value : PyVal)
  | subscript (value slice : PyExpr)
  | index (value : PyExpr)
  | tuple (elts : List PyExpr)
  | list (elts : List PyExpr)
  | usub (operand : PyExpr)
  | other (kind : String)
deriving Repr

mutual

/-- Model of `ast.literal_eval` on the embedded expression grammar: constants
and tuple/list displays of literals evaluate, a unary minus on an integer
constant evaluates, everything else raises (modelled as `none`; the source
catches the `ValueError`). -/
def literal_eval : PyExpr → Option PyVal
  | .constant v => some v
  | .tuple elts => (literal_evalSeq elts).map PyVal.tuple
  | .list elts => (literal_evalSeq elts).map PyVal.list
  | .usub e =>
    match e with
    | .constant (.int n) => some (.int (-n))
    | _ => Option.none
  | _ => Option.none

/-- Elementwise `literal_eval` of a display's elements; fails if any fails. -/
def literal_evalSeq : List PyExpr → Option (List PyVal)
  | [] => some []
  | e :: rest =>
    match literal_eval e, literal_evalSeq rest with
    | some v, some vs => some (v :: vs)
    | _, _ => Option.none

end

/-- Python `str()` of an `ast` node object (no `__str__` override, so the
default `object` repr).  CPython also prints the memory address; the model
elides it, and no claim depends on more than this string never being a
rendered name or the `"?"` sentinel. -/
def astStr : PyExpr → String
  | .name _ => "<ast.Name object>"
  | .constant _ => "<ast.Constant object>"
  | .subscript _ _ => "<ast.Subscript object>"
  | .index _ => "<ast.Index object>"
  | .tuple _ => "<ast.Tuple object>"
  | .list _ => "<ast.List object>"
  | .usub _ => "<ast.UnaryOp object>"
  | .other kind => "<ast." ++ kind ++ " object>"

/-- Model of `getattr(node, "id", str(node))` (class keyword values,
`class_definition` line 184). -/
def getattrId : PyExpr → String
  | .name id => id
  | e => astStr e

/-- Python `sep.join(items)`. -/
def pyJoin (sep : String) : List String → String
  | [] => ""
  | [s] => s
  | s :: rest => s ++ sep ++ pyJoin sep rest

mutual

/-- Translation of `annotation_definition` (lib.py lines 209-224): a `Name`
renders as its identifier, a `Subscript` as `value[slice]`, an `Index`
unwraps, a `Tuple` as the parenthesised comma-join of its elements, and any
other shape degrades to the `"?"` sentinel.  The source's `annotation is
None` guard is unreachable at its call sites (all are truthiness-guarded) and
is not modelled. -/
def annotation_definition : PyExpr → String
  | .name id => id
  | .subscript value slice => annotation_definition value ++ "[" ++ annotation_definition slice ++ "]"
  | .index value => annotation_definition value
  | .tuple elts => "(" ++ annotationSeq elts ++ ")"
  | _ => "?"

/-- Comma-join of rendered tuple elements, mirroring
`", ".join(annotation_definition(e) for e in annotation.elts)`. -/
def annotationSeq : List PyExpr → String
  | [] => ""
  | [e] => annotation_definition e
  | e :: rest => annotation_definition e ++ ", " ++ annotationSeq rest

end

/-! ### Function signatures (`function_definition`, lib.py lines 107-172) -/

/-- Formal parameter (`ast.arg`): name and optional annotation expression. -/
structure Arg where
  arg : String
  annotation : Option PyExpr
deriving Repr

/-- Parameter table of a function (`ast.arguments`).  `kw_defaults` (defaults
of keyword-only parameters) is part of the Python AST but is never read by
`function_definition` - that omission is exactly what claim C3 is about. -/
structure Arguments where
  posonlyargs : List Arg
  args : List Arg
  kwonlyargs : List Arg
  defaults : List PyExpr
  kw_defaults : List (Option PyExpr)
  vararg : Option Arg
  kwarg : Option Arg
deriving Repr

/-- Function or async-function declaration (`ast.FunctionDef` /
`ast.AsyncFunctionDef`, collapsed into one record with an `isAsync` flag). -/
structure FunctionNode where
  name : String
  args : Arguments
  returns : Option PyExpr
  isAsync : Bool
deriving Repr

/-- The list `[*posonlyargs, *args, *kwonlyargs]` built at lines 110-114. -/
def allArgs (a : Arguments) : List Arg :=
  a.posonlyargs ++ a.args ++ a.kwonlyargs

/-- Evaluation of one entry of `function_node.args.defaults` (lines 131-138):
`literal_eval` it, double-quote string results, and on `ValueError` fall back
to `getattr(default, "id", "...")`. -/
def evalDefault (e : PyExpr) : PyVal :=
  match literal_eval e with
  | some (.str s) => .str ("\"" ++ s ++ "\"")
  | some v => v
  | Option.none =>
    match e with
    | .name id => .str id
    | _ => .str "..."

/-- The padded defaults list of line 130: `[None] * (len(all_args) -
len(args.defaults))` followed by the evaluated defaults.  Note the padding is
against `all_args` (which includes keyword-only parameters), not against
`posonlyargs + args`. -/
def defaultsList (a : Arguments) : List (Option PyVal) :=
  List.replicate ((allArgs a).length - a.defaults.length) Option.none
    ++ a.defaults.map (fun d => some (evalDefault d))

/-- One parameter token (loop body, lines 147-152): name, `": annotation"` if
annotated, and `"=default"` if the paired defaults entry is a truthy value. -/
def argToken (a : Arg) (default : Option PyVal) : String :=
  let base := a.arg ++ (match a.annotation with
    | some ann => ": " ++ annotation_definition ann
    | _ => "")
  match default with
  | some v => if pyTruthy v then base ++ "=" ++ pyStr v else base
  | _ => base

/-- Separator tokens emitted at loop index `i` (lines 143-146): `"/"` when
`position_of_slash` is truthy and equals `i`, then `"*"` when
`position_of_star` is truthy and equals `i`. -/
def sepTokens (slash star i : Nat) : List String :=
  (if slash ≠ 0 ∧ i = slash then ["/"] else [])
    ++ (if star ≠ 0 ∧ i = star then ["*"] else [])

/-- The `for i, (arg, default) in enumerate(zip_longest(all_args, defaults))`
loop (lines 142-154).  When the defaults list is shorter it is padded with
`None` as `zip_longest` does; the converse padding (more defaults than
parameters) cannot arise from a parsed AST and would crash the source
(`None.arg`), so the model simply stops there. -/
def argumentsList (slash star : Nat) : Nat → List Arg → List (Option PyVal) → List String
  | _, [], _ => []
  | i, a :: rest, [] =>
    sepTokens slash star i ++ (argToken a Option.none :: argumentsList slash star (i + 1) rest [])
  | i, a :: rest, d :: ds =>
    sepTokens slash star i ++ (argToken a d :: argumentsList slash star (i + 1) rest ds)

/-- The `arguments` list right after the loop, before `*args`/`**kwargs` are
appended: slash position is `len(posonlyargs)`, star position is
`len(all_args) - len(kwonlyargs)` (lines 119-124). -/
def functionTokens (a : Arguments) : List String :=
  argumentsList a.posonlyargs.length ((allArgs a).length - a.kwonlyargs.length)
    0 (allArgs a) (defaultsList a)

/-- Translation of `function_definition` (lib.py lines 107-172). -/
def function_definition (f : FunctionNode) : String :=
  let arguments := functionTokens f.args
  let arguments := arguments ++ (match f.args.vararg with
    | some v => ["*" ++ v.arg]
    | _ => [])
  let arguments := arguments ++ (match f.args.kwarg with
    | some k => ["**" ++ k.arg]
    | _ => [])
  let arguments_str := pyJoin ", " arguments
  let ret := match f.returns with
    | some r => " -> " ++ annotation_definition r
    | _ => ""
  let def_ := if f.isAsync then "async def " else "def "
  def_ ++ f.name ++ "(" ++ arguments_str ++ ")" ++ ret

/-! ### Type summaries (`type_summary`, lib.py lines 252-301) -/

/-- The derived typing flags (`TypeSummary` dataclass). -/
structure TypeSummary where
  fully : Bool
  partially : Bool
deriving Repr

/-- The argument scan of lines 267-278, with its `first` flag: a first
parameter literally named `self` sets `has_untyped_self` and is skipped
without clearing `first`; every other parameter clears `first` and counts
toward `typed_count` when annotated.  Returns
`(has_untyped_self, typed_count)`. -/
def summarizeArgs : List Arg → Bool → Bool → Nat → Bool × Nat
  | [], _, has_self, typed => (has_self, typed)
  | a :: rest, first, has_self, typed =>
    if first && (a.arg == "self") then
      summarizeArgs rest first true typed
    else
      summarizeArgs rest false has_self
        (typed + (if (a.annotation).isSome then 1 else 0))

/-- Translation of `type_summary` for function nodes (lib.py lines 258-301).
The source returns `None` for non-function nodes; the model only takes
function nodes.  `num_arguments - 1` is computed in `Int` as in Python. -/
def type_summary (f : FunctionNode) : TypeSummary :=
  let all_args := allArgs f.args
  let num_arguments : Int := all_args.length
  let p := summarizeArgs all_args true false 0
  let has_untyped_self := p.1
  let typed_count : Int := p.2
  let return_is_typed := f.returns.isSome
  let partially := decide (0 < typed_count) || return_is_typed
  let fully := (typed_count == num_arguments) && return_is_typed
  let fully := fully ||
    (has_untyped_self && (typed_count == num_arguments - 1) && return_is_typed)
  let fully := fully ||
    ((f.name == "__init__") &&
      ((has_untyped_self && (typed_count == num_arguments - 1)) || (typed_count == num_arguments)))
  ⟨fully, partially⟩

/-! ### Class signatures (`class_definition`, lib.py lines 175-206) -/

/-- A `keyword` node of a class statement's argument list: `arg` is `none`
for a `**kwargs` unpacking. -/
structure Keyword where
  arg : Option String
  value : PyExpr
deriving Repr

/-- Class declaration (`ast.ClassDef`) as consumed by `class_definition`. -/
structure ClassNode where
  name : String
  bases : List PyExpr
  keywords : List Keyword
deriving Repr

/-- One insertion into a Python `dict` built by comprehension: a fresh key is
appended, an existing key keeps its position and takes the new value. -/
def dictInsert (d : List (Option String × String)) (k : Option String) (v : String) :
    List (Option String × String) :=
  if d.any (fun p => p.1 == k) then
    d.map (fun p => if p.1 == k then (p.1, v) else p)
  else d ++ [(k, v)]

/-- The dict comprehension of line 184:
`{k.arg: getattr(k.value, "id", str(k.value)) for k in class_def.keywords}`. -/
def keywordsDict (ks : List Keyword) : List (Option String × String) :=
  ks.foldl (fun d k => dictInsert d k.arg (getattrId k.value)) []

/-- Python `dict.pop(key, None)`: the removed value (if the key is present)
and the remaining entries in order.  Keys of a dict are unique, so removing
by filtering removes exactly the popped entry. -/
def dictPop (d : List (Option String × String)) (k : Option String) :
    Option String × List (Option String × String) :=
  match d.find? (fun p => p.1 == k) with
  | some p => (some p.2, d.filter (fun q => !(q.1 == k)))
  | Option.none => (Option.none, d)

/-- Python `f"{key}"` for a dict key that is a string or `None`. -/
def optStr : Option String → String
  | some s => s
  | Option.none => "None"

/-- Translation of `class_definition` (lib.py lines 175-206).  Bases
contribute their `id` only when `getattr(base, "id", None)` is truthy (a
`Name` with a nonempty identifier); keywords become `name=...` placeholders
except `metaclass`, which is popped and appended last with its
`getattr(value, "id", str(value))` rendering when that string is truthy. -/
def class_definition (c : ClassNode) : String :=
  let base_classes := c.bases.filterMap (fun b => match b with
    | .name id => if id = "" then Option.none else some id
    | _ => Option.none)
  let base_classes_str := pyJoin ", " base_classes
  let popped := dictPop (keywordsDict c.keywords) (some "metaclass")
  let metaclass := popped.1
  let keywords := popped.2
  let keyword_str := pyJoin ", " (keywords.map (fun p => optStr p.1 ++ "=..."))
  let signature :=
    if base_classes_str ≠ "" ∧ keyword_str ≠ "" then base_classes_str ++ ", " ++ keyword_str
    else if base_classes_str ≠ "" then base_classes_str
    else if keyword_str ≠ "" then keyword_str
    else ""
  let signature :=
    match metaclass with
    | some m =>
      if m ≠ "" then signature ++ (if signature ≠ "" then ", " else "") ++ "metaclass=" ++ m
      else signature
    | Option.none => signature
  let signature := if signature ≠ "" then "(" ++ signature ++ ")" else ""
  "class " ++ c.name ++ signature

/-! ### Symbol matching (`match`, lib.py lines 82-104)

The source calls `fnmatch.fnmatch`, which on a POSIX platform (where
`os.path.normcase` is the identity) compiles the pattern with
`fnmatch.translate` and matches the whole string: `*` matches any run of
characters, `?` any single character, `[seq]` a character class with `!`
negation and `a-b` ranges, an unterminated `[` is a literal.  The matcher is
modelled below by first compiling the pattern to tokens (as `translate`
compiles it to a regex) and then matching. -/

/-- Compiled glob-pattern token. -/
inductive GlobTok where
  | star
  | any
  | lit (c : Char)
  | cls (neg : Bool) (members : List Char)
deriving Repr

/-- Scan for the closing `]` of a character class: the member characters
before it and the rest of the pattern after it, or `none` when the class is
unterminated. -/
def scanClass : List Char → Option (List Char × List Char)
  | [] => Option.none
  | c :: rest =>
    if c = ']' then some ([], rest)
    else (scanClass rest).map (fun p => (c :: p.1, p.2))

/-- Class members starting right after the optional `!`: a `]` in first
position is a literal member, the class ends at the next `]`. -/
def scanSeq : List Char → Option (List Char × List Char)
  | [] => Option.none
  | c :: rest =>
    if c = ']' then (scanClass rest).map (fun q => (']' :: q.1, q.2))
    else scanClass (c :: rest)

/-- Parse the inside of a `[...]` class (the list starts right after `[`):
an optional leading `!` negates, a `]` directly after that is a literal
member, and the class ends at the next `]`.  Returns `none` (literal `[`)
when no closing `]` exists, as `fnmatch.translate` does. -/
def extractClass : List Char → Option (Bool × List Char × List Char)
  | [] => Option.none
  | c :: rest =>
    if c = '!' then (scanSeq rest).map (fun q => (true, q.1, q.2))
    else (scanSeq (c :: rest)).map (fun q => (false, q.1, q.2))

/-- Compile a glob pattern to tokens, following `fnmatch.translate`.  The
first argument is fuel (each step consumes at least one pattern character, so
the pattern's length is always enough); fuel keeps the recursion structural
so that the kernel can evaluate it. -/
def compilePatFuel : Nat → List Char → List GlobTok
  | 0, _ => []
  | _, [] => []
  | fuel + 1, c :: p =>
    if c = '*' then .star :: compilePatFuel fuel p
    else if c = '?' then .any :: compilePatFuel fuel p
    else if c = '[' then
      match extractClass p with
      | some q => .cls q.1 q.2.1 :: compilePatFuel fuel q.2.2
      | Option.none => .lit '[' :: compilePatFuel fuel p
    else .lit c :: compilePatFuel fuel p

/-- Compile a glob pattern to tokens (adequately fuelled). -/
def compilePat (p : List Char) : List GlobTok :=
  compilePatFuel p.length p

/-- Membership in a character class, with `a-b` ranges; a `-` without a
right-hand neighbour is a literal member. -/
def memberMatch : List Char → Char → Bool
  | a :: '-' :: b :: rest, c => (a ≤ c && c ≤ b) || memberMatch rest c
  | a :: rest, c => (a == c) || memberMatch rest c
  | [], _ => false

/-- Match a compiled pattern against a string, both ends anchored, as
`re.match(..., name)` with the `\Z`-terminated regex built by
`fnmatch.translate` does: `star` (the regex `.*` under `DOTALL`) matches an
arbitrary prefix, tried here as every suffix split of the string. -/
def tokMatch : List GlobTok → List Char → Bool
  | [], s => s.isEmpty
  | .star :: p, s => s.tails.any (fun t => tokMatch p t)
  | .any :: p, s =>
    (match s with
     | [] => false
     | _ :: s' => tokMatch p s')
  | .lit c :: p, s =>
    (match s with
     | [] => false
     | c' :: s' => (c == c') && tokMatch p s')
  | .cls neg mem :: p, s =>
    (match s with
     | [] => false
     | c :: s' => (memberMatch mem c != neg) && tokMatch p s')

/-- Model of `fnmatch.fnmatch(name, pattern)` on POSIX. -/
def fnmatch (name pattern : String) : Bool :=
  tokMatch (compilePat pattern.toList) name.toList

/-- Python `s.split(sep)` for a single-character separator, on the
character-list view of the string. -/
def pySplit (sep : Char) : List Char → List (List Char)
  | [] => [[]]
  | c :: rest =>
    match pySplit sep rest with
    | [] => [[c]]
    | g :: gs => if c = sep then [] :: g :: gs else (c :: g) :: gs

deriving instance DecidableEq for Except

/-- The body of the `for search in symbols:` loop of `match` (lib.py lines
86-102) for one pattern, with Python's unpacking `ValueError` modelled as
`Except.error`: a pattern without `*` matches by string equality; a pattern
with `*` and exactly one `.` applies to dotted candidates by unpacking both
sides at the dot (raising when the candidate has more than one dot) and
`fnmatch`-ing each side; any other `*` pattern `fnmatch`-es the whole name,
which must be dot-free. -/
def matchOne (name search : String) : Except Unit Bool :=
  if (search.toList.contains '*') = false then
    .ok (name == search)
  else if search.toList.count '.' = 1 then
    if (name.toList.contains '.') = true then
      match pySplit '.' search.toList with
      | [class_match, method_match] =>
        match pySplit '.' name.toList with
        | [class_name, method_name] =>
          .ok (tokMatch (compilePat class_match) class_name
            && tokMatch (compilePat method_match) method_name)
        | _ => .error ()
      | _ => .error ()
    else .ok false
  else
    .ok (fnmatch name search && (name.toList.contains '.') = false)

/-- The `for` loop of `match`: first pattern that matches wins, a raised
`ValueError` propagates. -/
def matchLoop (name : String) : List String → Except Unit Bool
  | [] => .ok false
  | search :: rest =>
    match matchOne name search with
    | .error e => .error e
    | .ok true => .ok true
    | .ok false => matchLoop name rest

/-- Translation of `match` (lib.py lines 82-104); named `matchSym` because
`match` is a Lean keyword.  A `None` name never matches. -/
def matchSym (name : Option String) (symbols : List String) : Except Unit Bool :=
  match name with
  | Option.none => .ok false
  | some n => matchLoop n symbols

/-! ### Verbatim extraction (`code_for_node`, else-branch, lib.py lines 59-68) -/

/-- Location data of a declaration node: its one-based definition line, its
inclusive one-based end line, and the lines of its decorators in order
(`decorator_list[i].lineno`). -/
structure NodeLoc where
  lineno : Nat
  end_lineno : Nat
  decorator_linenos : List Nat
deriving Repr

/-- The line list `code.split("\n")` of lib.py line 41. -/
def codeLines (code : String) : List String :=
  (pySplit '\n' code.toList).map (fun cs => String.mk cs)

/-- Translation of the non-signature branch of `code_for_node` (lib.py lines
59-68): `start` is the zero-based first decorator line when `decorator_list`
is truthy (nonempty), else the zero-based definition line; the text is
`"\n".join(lines[start:end_lineno])` and the reported line is `start + 1`. -/
def code_for_node_verbatim (code : String) (node : NodeLoc) : String × Nat :=
  let lines := codeLines code
  let start := match node.decorator_linenos with
    | [] => node.lineno - 1
    | d :: _ => d - 1
  let stop := node.end_lineno
  (pyJoin "\n" ((lines.drop start).take (stop - start)), start + 1)

/-- Spec-side `decoratedStartLine` of the data model: the first decorator's
line when decorators exist, otherwise the definition line. -/
def decoratedStart (node : NodeLoc) : Nat :=
  match node.decorator_linenos with
  | [] => node.lineno
  | d :: _ => d

/-- Spec-side "the exact source lines from line `a` through line `b`
inclusive" (one-based, joined back with newlines). -/
def linesRange (code : String) (a b : Nat) : String :=
  pyJoin "\n" (((codeLines code).drop (a - 1)).take (b - a + 1))

/-! ### Import resolution (`import_line_for_function`, lib.py lines 315-341)

Paths are represented as their component lists after `Path(...).resolve()`;
resolution itself (symlinks, current directory) is filesystem state outside
the core and is modelled as the identity on already-absolute normalized
paths.  `Path.relative_to(root)` succeeds exactly when `root`'s components
are a prefix of the file's components, and then yields the remaining
components. -/

/-- Index of the last `.` in a character list (`str.rfind(".")`), `none` when
absent. -/
def rfindDot : List Char → Option Nat
  | [] => Option.none
  | c :: rest =>
    match rfindDot rest with
    | some i => some (i + 1)
    | Option.none => if c = '.' then some 0 else Option.none

/-- Model of `PurePath.stem`: the final component's name without its suffix,
where a suffix starts at the last `.` only when that dot is neither leading
nor trailing (`0 < i < len(name) - 1` in pathlib). -/
def stemOf (nm : String) : String :=
  match rfindDot nm.toList with
  | some i => if 0 < i ∧ i < nm.length - 1 then String.mk (nm.toList.take i) else nm
  | Option.none => nm

/-- The `for root_dir in possible_root_dirs:` loop: the first root the file
path is relative to yields the dotted import, otherwise the relative-import
fallback (lib.py lines 327-341). -/
def importLoop (function_name stem : String) (filepath : List String) :
    List (List String) → String
  | [] => "from ." ++ stem ++ " import " ++ function_name
  | root_dir :: rest =>
    if root_dir.isPrefixOf filepath then
      "from " ++ pyJoin "." (((filepath.drop root_dir.length).dropLast) ++ [stem])
        ++ " import " ++ function_name
    else importLoop function_name stem filepath rest

/-- Translation of `import_line_for_function` (lib.py lines 315-341).  The
file path must name a file, so its component list is nonempty; the stem of an
empty path is the degenerate `""`. -/
def import_line_for_function (function_name : String) (filepath : List String)
    (possible_root_dirs : List (List String)) : String :=
  let filename_without_extension := stemOf (filepath.getLastD "")
  importLoop function_name filename_without_extension filepath possible_root_dirs

/-! ### Spec-side definitions

These follow the specification's wording and are compared with the
source-side definitions above in the claim theorems. -/

/-- Spec-side classifier of the annotation shapes `renderAnnotation` handles:
simple name, subscripted generic, (index wrapper), tuple-of-expressions. -/
def renderableAnn : PyExpr → Bool
  | .name _ => true
  | .subscript _ _ => true
  | .index _ => true
  | .tuple _ => true
  | _ => false

/-- The loop tokens without any separator insertion: each parameter paired
with its defaults-list entry, the defaults padded with `none` when shorter
(and parameters exhausted first otherwise). -/
def plainTokens : List Arg → List (Option PyVal) → List String
  | [], _ => []
  | a :: rest, [] => argToken a Option.none :: plainTokens rest []
  | a :: rest, d :: ds => argToken a d :: plainTokens rest ds

/-- Spec-side `renderDefault`: a literal constant renders as its value
(strings double-quoted), a simple identifier as itself, anything else as the
`...` placeholder. -/
def renderDefault_spec (e : PyExpr) : String :=
  match e with
  | .name id => id
  | _ =>
    match literal_eval e with
    | some (.str s) => "\"" ++ s ++ "\""
    | some v => pyStr v
    | Option.none => "..."

/-- Spec-side parameter token:
`name[": " + renderAnnotation(annotation)]["=" + renderDefault(default)]`. -/
def paramToken_spec (a : Arg) (d : Option PyExpr) : String :=
  a.arg ++ (match a.annotation with
    | some ann => ": " ++ annotation_definition ann
    | _ => "")
  ++ (match d with
    | some e => "=" ++ renderDefault_spec e
    | _ => "")

/-- Right-alignment of the positional defaults against a parameter list, as
the spec describes it for `posonly ++ args`. -/
def alignedDefaults_spec (params : List Arg) (ds : List PyExpr) : List (Option PyExpr) :=
  List.replicate (params.length - ds.length) Option.none ++ ds.map some

/-- Spec-side class header: the simple-name bases in order, then every
non-`metaclass` keyword as a `name=...` placeholder, then
`metaclass=<rendered value>` last when a `metaclass` keyword exists;
parenthesised only when nonempty. -/
def class_definition_spec (c : ClassNode) : String :=
  let bases := c.bases.filterMap (fun b => match b with
    | .name id => some id
    | _ => Option.none)
  let kwTokens := (c.keywords.filter (fun k => !(k.arg == some "metaclass"))).map
    (fun k => optStr k.arg ++ "=...")
  let metaTok := match c.keywords.find? (fun k => k.arg == some "metaclass") with
    | some k => ["metaclass=" ++ annotation_definition k.value]
    | Option.none => []
  let items := bases ++ kwTokens ++ metaTok
  "class " ++ c.name ++ (if items = [] then "" else "(" ++ pyJoin ", " items ++ ")")

/-! ### Example declarations used by individual claims -/

/-- Example for C5: `def __init__(self): ...`. -/
def exInitSelf : FunctionNode :=
  ⟨"__init__", ⟨[], [⟨"self", Option.none⟩], [], [], [], Option.none, Option.none⟩,
    Option.none, false⟩

/-- Example for C5's witness: `def f(a: int) -> bool: ...`. -/
def exFullyTyped : FunctionNode :=
  ⟨"f", ⟨[], [⟨"a", some (.name "int")⟩], [], [], [], Option.none, Option.none⟩,
    some (.name "bool"), false⟩

/-! ## The claims -/

/-- Claim C1, counterexample.  For the decorated declaration
`@dec⏎def f():⏎    pass` (decorator on line 1, `def` on line 2), verbatim
extraction returns the decorator-to-end text but reports line 1 - the
decorator's line - whereas the claim requires the reported line to be the
definition line 2, never the decorator's line. -/
theorem claim_C1_counterexample :
    code_for_node_verbatim "@dec\ndef f():\n    pass" ⟨2, 3, [1]⟩ =
      ("@dec\ndef f():\n    pass", 1) ∧ (1 : Nat) ≠ 2 := by
  constructor
  · rfl
  · decide

/-- Claim C1 as amended: in verbatim mode the returned text is exactly the
source lines from `decoratedStartLine` through `endLine` inclusive, and the
reported line number is `decoratedStartLine` - the first decorator's line
when decorators exist - not the definition line. -/
theorem claim_C1 (code : String) (node : NodeLoc)
    (h1 : 1 ≤ decoratedStart node) (h2 : decoratedStart node ≤ node.end_lineno) :
    code_for_node_verbatim code node =
      (linesRange code (decoratedStart node) node.end_lineno, decoratedStart node) := by
  have hstart : (match node.decorator_linenos with
      | [] => node.lineno - 1
      | d :: _ => d - 1) = decoratedStart node - 1 := by
    unfold decoratedStart
    cases node.decorator_linenos <;> rfl
  simp only [code_for_node_verbatim, linesRange]
  rw [hstart]
  have h3 : node.end_lineno - (decoratedStart node - 1) =
      node.end_lineno - decoratedStart node + 1 := by omega
  have h4 : decoratedStart node - 1 + 1 = decoratedStart node := by omega
  rw [h3, h4]

/-- Claim C1 witness: the amended statement applied to a concrete decorated
declaration. -/
theorem claim_C1_witness :
    code_for_node_verbatim "x = 1\n@dec\ndef f():\n    pass" ⟨3, 4, [2]⟩ =
      ("@dec\ndef f():\n    pass", 2) :=
  (claim_C1 "x = 1\n@dec\ndef f():\n    pass" ⟨3, 4, [2]⟩ (by decide) (by decide)).trans
    (by decide)

/-- Claim C5, counterexample.  `def __init__(self): ...` has one parameter
and no annotated return, yet its summary is fully-typed and not
partially-typed: `fullyTyped` does not imply `partiallyTyped` here, and the
claim's only exception (zero parameters with an annotated return) does not
cover it. -/
theorem claim_C5_counterexample :
    (type_summary exInitSelf).fully = true ∧
    (type_summary exInitSelf).partially = false ∧
    (allArgs exInitSelf.args).length = 1 ∧
    exInitSelf.returns = Option.none := by
  refine ⟨by decide, by decide, by decide, rfl⟩

/-- Claim C5 as amended: `fullyTyped` implies `partiallyTyped` except for
functions named `__init__` with no return annotation (where the `__init__`
special case can set `fullyTyped` with nothing annotated at all). -/
theorem claim_C5 (f : FunctionNode) (h : (type_summary f).fully = true) :
    (type_summary f).partially = true ∨
      (f.name = "__init__" ∧ f.returns = Option.none) := by
  obtain ⟨nm, fargs, rets, fasync⟩ := f
  by_cases hp : (type_summary ⟨nm, fargs, rets, fasync⟩).partially = true
  · exact Or.inl hp
  · right
    rcases rets with _ | r
    · simp only [type_summary, Option.isSome_none, Bool.and_false, Bool.false_or,
        Bool.or_eq_true, Bool.and_eq_true, beq_iff_eq] at h
      exact ⟨h.1, rfl⟩
    · exfalso
      apply hp
      simp [type_summary]

/-- Claim C5 witness: the amended implication applied to a concrete
fully-typed function. -/
theorem claim_C5_witness :
    (type_summary exFullyTyped).partially = true ∨
      (exFullyTyped.name = "__init__" ∧ exFullyTyped.returns = Option.none) :=
  claim_C5 exFullyTyped (by decide)

/-- Claim C9, counterexample.  A `metaclass` keyword whose value is not a
simple name (here an `ast.Attribute`) does not degrade to the `?` sentinel:
`class_definition` renders the Python object representation
`str(node)` instead. -/
theorem claim_C9_counterexample :
    class_definition ⟨"C", [], [⟨some "metaclass", .other "Attribute"⟩]⟩ =
      "class C(metaclass=<ast.Attribute object>)" ∧
    "class C(metaclass=<ast.Attribute object>)" ≠ "class C(metaclass=?)" := by
  refine ⟨by decide, by decide⟩

/-- Claim C9 as amended: header rendering is total by construction and
degrades rather than failing - an unsupported annotation shape renders as the
`?` sentinel, an unsupported default expression renders as the `...`
placeholder - but an unsupported `metaclass` value renders as the Python
object-representation string (via `str(node)`), not as `?`. -/
theorem claim_C9 :
    (∀ e : PyExpr, renderableAnn e = false → annotation_definition e = "?") ∧
    (∀ e : PyExpr, literal_eval e = Option.none → (∀ id, e ≠ .name id) →
      evalDefault e = .str "...") ∧
    (∀ kind : String, getattrId (.other kind) = astStr (.other kind)) ∧
    class_definition ⟨"C", [], [⟨some "metaclass", .other "Attribute"⟩]⟩ =
      "class C(metaclass=" ++ astStr (.other "Attribute") ++ ")" := by
  refine ⟨?_, ?_, fun _ => rfl, by decide⟩
  · intro e he
    cases e <;> first
      | rfl
      | simp [renderableAnn] at he
  · intro e hlit hname
    cases e with
    | name id => exact absurd rfl (hname id)
    | constant v => simp [literal_eval] at hlit
    | _ => simp [evalDefault, hlit]

/-- Claim C9 witness: the degradation equalities applied at concrete
unsupported shapes. -/
theorem claim_C9_witness :
    annotation_definition (.other "Lambda") = "?" ∧
    evalDefault (.other "Call") = .str "..." :=
  ⟨claim_C9.1 (.other "Lambda") (by decide), claim_C9.2.1 (.other "Call") rfl
    (fun id h => by simp at h)⟩

/-! ### Lemmas about `pySplit` and the match loop -/

theorem pySplit_ne_nil (c : Char) (l : List Char) : pySplit c l ≠ [] := by
  cases l with
  | nil => simp [pySplit]
  | cons a rest =>
    rw [pySplit]
    rcases pySplit c rest with _ | ⟨g, gs⟩
    · simp
    · by_cases ha : a = c <;> simp [ha]

theorem pySplit_length (c : Char) (l : List Char) :
    (pySplit c l).length = l.count c + 1 := by
  induction l with
  | nil => simp [pySplit]
  | cons a rest ih =>
    rw [pySplit]
    rcases hp : pySplit c rest with _ | ⟨g, gs⟩
    · exact absurd hp (pySplit_ne_nil c rest)
    · rw [hp] at ih
      by_cases ha : a = c
      · subst ha
        simp only [if_pos rfl, List.length_cons, List.count_cons, beq_self_eq_true,
          if_true] at ih ⊢
        omega
      · have hbeq : (a == c) = false := by
          simp only [beq_eq_false_iff_ne, ne_eq]
          exact ha
        simp [if_neg ha, List.count_cons, hbeq] at ih ⊢
        omega

theorem pySplit_two (c : Char) (l : List Char) (h : l.count c = 1) :
    ∃ a b, pySplit c l = [a, b] := by
  have hl : (pySplit c l).length = 2 := by rw [pySplit_length, h]
  rcases hp : pySplit c l with _ | ⟨a, _ | ⟨b, _ | ⟨x, xs⟩⟩⟩ <;>
    simp [hp] at hl
  exact ⟨a, b, rfl⟩

theorem count_pos_of_contains {c : Char} {l : List Char}
    (h : l.contains c = true) : 0 < l.count c := by
  have : c ∈ l := by simpa using h
  exact List.count_pos_iff.mpr this

theorem contains_of_count_one {c : Char} {l : List Char}
    (h : l.count c = 1) : l.contains c = true := by
  have : c ∈ l := by
    by_contra hmem
    have := List.count_eq_zero_of_not_mem hmem
    omega
  simpa using this

/-- With at most one dot in the candidate, `matchOne` cannot raise: the
unpacking `name.split(".")` always yields exactly two parts when taken. -/
theorem matchOne_ok (name search : String) (h : name.toList.count '.' ≤ 1) :
    ∃ b, matchOne name search = .ok b := by
  unfold matchOne
  by_cases h1 : (search.toList.contains '*') = false
  · rw [if_pos h1]
    exact ⟨_, rfl⟩
  · rw [if_neg h1]
    by_cases h2 : search.toList.count '.' = 1
    · rw [if_pos h2]
      by_cases h3 : (name.toList.contains '.') = true
      · rw [if_pos h3]
        have hone : name.toList.count '.' = 1 := by
          have := count_pos_of_contains h3
          omega
        obtain ⟨cp, mp, hsp⟩ := pySplit_two '.' search.toList h2
        obtain ⟨cn, mn, hnp⟩ := pySplit_two '.' name.toList hone
        rw [hsp, hnp]
        exact ⟨_, rfl⟩
      · rw [if_neg h3]
        exact ⟨false, rfl⟩
    · rw [if_neg h2]
      exact ⟨_, rfl⟩

/-- The `for` loop returns `True` exactly when some pattern matches, provided
no pattern can raise on this candidate. -/
theorem matchLoop_iff (name : String) (symbols : List String)
    (h : name.toList.count '.' ≤ 1) :
    matchLoop name symbols = .ok true ↔
      ∃ s ∈ symbols, matchOne name s = .ok true := by
  induction symbols with
  | nil => simp [matchLoop]
  | cons s rest ih =>
    rw [matchLoop]
    obtain ⟨b, hb⟩ := matchOne_ok name s h
    rw [hb]
    cases b with
    | true => simp [hb]
    | false =>
      rw [ih]
      constructor
      · rintro ⟨t, ht, hmt⟩
        exact ⟨t, List.mem_cons_of_mem s ht, hmt⟩
      · rintro ⟨t, ht, hmt⟩
        rcases List.mem_cons.mp ht with rfl | ht'
        · rw [hb] at hmt
          exact absurd hmt (by simp)
        · exact ⟨t, ht', hmt⟩

/-- Claim C6, confirmed.  For a pattern with exactly one `.` and at least one
`*`, a candidate matches exactly when it has exactly one `.` itself and both
dot-separated parts glob-match the corresponding pattern parts independently
(full-string anchored); candidates with zero or several dots never match such
a pattern (the source raises `ValueError` on several dots rather than
returning, so it never returns a match there either). -/
theorem claim_C6 (search name : String)
    (h1 : search.toList.count '.' = 1) (h2 : search.toList.contains '*' = true) :
    (matchSym (some name) [search] = .ok true ↔
      ∃ cn mn cp mp, pySplit '.' name.toList = [cn, mn] ∧
        pySplit '.' search.toList = [cp, mp] ∧
        tokMatch (compilePat cp) cn = true ∧ tokMatch (compilePat mp) mn = true) ∧
    (name.toList.count '.' ≠ 1 → matchSym (some name) [search] ≠ .ok true) := by
  obtain ⟨cp, mp, hsp⟩ := pySplit_two '.' search.toList h1
  have hsingle : (matchSym (some name) [search] = .ok true) ↔
      (matchOne name search = .ok true) := by
    simp only [matchSym, matchLoop]
    rcases hmo : matchOne name search with e | b
    · simp
    · cases b <;> simp [matchLoop]
  have hiff : matchSym (some name) [search] = .ok true ↔
      ∃ cn mn cp' mp', pySplit '.' name.toList = [cn, mn] ∧
        pySplit '.' search.toList = [cp', mp'] ∧
        tokMatch (compilePat cp') cn = true ∧ tokMatch (compilePat mp') mn = true := by
    rw [hsingle]
    unfold matchOne
    rw [h2, if_neg (by simp), if_pos h1]
    by_cases hnd : (name.toList.contains '.') = true
    · rw [if_pos hnd, hsp]
      rcases hnp : pySplit '.' name.toList with _ | ⟨cn, _ | ⟨mn, _ | ⟨x, xs⟩⟩⟩
      · exact absurd hnp (pySplit_ne_nil _ _)
      · constructor
        · intro hc
          exact Except.noConfusion hc
        · rintro ⟨cn', mn', cp', mp', hn', -, -, -⟩
          simp at hn'
      · constructor
        · intro hc
          have hc' : Except.ok (tokMatch (compilePat cp) cn
              && tokMatch (compilePat mp) mn) = Except.ok true := hc
          have hb := Bool.and_eq_true_iff.mp (Except.ok.inj hc')
          exact ⟨cn, mn, cp, mp, rfl, rfl, hb.1, hb.2⟩
        · rintro ⟨cn', mn', cp', mp', hn', hs', ht1, ht2⟩
          obtain ⟨rfl, rfl⟩ : cn = cn' ∧ mn = mn' := by simpa using hn'
          obtain ⟨rfl, rfl⟩ : cp = cp' ∧ mp = mp' := by simpa using hs'
          simp [ht1, ht2]
      · constructor
        · intro hc
          exact Except.noConfusion hc
        · rintro ⟨cn', mn', cp', mp', hn', -, -, -⟩
          simp at hn'
    · rw [if_neg hnd]
      constructor
      · intro hc
        exact absurd (Except.ok.inj hc) (by simp)
      · rintro ⟨cn, mn, cp', mp', hn', -, -, -⟩
        have hcount : name.toList.count '.' = 1 := by
          have hl := pySplit_length '.' name.toList
          rw [hn'] at hl
          simpa using hl.symm
        exact (hnd (contains_of_count_one hcount)).elim
  refine ⟨hiff, ?_⟩
  intro hcnt hok
  obtain ⟨cn, mn, cp', mp', hn', -, -, -⟩ := hiff.mp hok
  have hl := pySplit_length '.' name.toList
  rw [hn'] at hl
  exact hcnt (by simpa using hl.symm)

/-- Claim C6 witness: the characterisation applied to the concrete qualified
pattern `F*.b*` and candidate `Foo.bar`. -/
theorem claim_C6_witness : matchSym (some "Foo.bar") ["F*.b*"] = .ok true := by
  have h := (claim_C6 "F*.b*" "Foo.bar" (by decide) (by decide)).1
  exact h.mpr ⟨"Foo".toList, "bar".toList, "F*".toList, "b*".toList,
    by decide, by decide, by decide, by decide⟩

/-- Claim C8, confirmed.  A pattern without `*` matches exactly the equal
string; a `None` candidate matches nothing; and (for candidates with at most
one dot, the only ones the locator produces) a declaration matches a pattern
set exactly when some pattern of the set matches it. -/
theorem claim_C8 :
    (∀ search name : String, search.toList.contains '*' = false →
      matchOne name search = .ok (name == search)) ∧
    (∀ symbols : List String, matchSym Option.none symbols = .ok false) ∧
    (∀ (name : String) (symbols : List String), name.toList.count '.' ≤ 1 →
      (matchSym (some name) symbols = .ok true ↔
        ∃ s ∈ symbols, matchOne name s = .ok true)) := by
  refine ⟨?_, fun _ => rfl, ?_⟩
  · intro search name h
    unfold matchOne
    rw [if_pos h]
  · intro name symbols h
    exact matchLoop_iff name symbols h

/-- Claim C8 witness: the three statements at concrete inputs. -/
theorem claim_C8_witness :
    matchOne "foo" "foo" = .ok ("foo" == "foo") ∧
    matchSym Option.none ["x"] = .ok false ∧
    (matchSym (some "foo") ["bar", "foo"] = .ok true ↔
      ∃ s ∈ ["bar", "foo"], matchOne "foo" s = .ok true) :=
  ⟨claim_C8.1 "foo" "foo" (by decide), claim_C8.2.1 ["x"],
    claim_C8.2.2 "foo" ["bar", "foo"] (by decide)⟩

/-- Claim C10, confirmed.  Glob semantics are reached only when the pattern
contains `*`: a pattern containing `?` or `[...]` but no `*` is compared
literally (exact equality), while in a pattern that does contain `*` the
compiled matcher treats `?` as any single character and `[seq]` as a
character class, beyond the `*` wildcard itself. -/
theorem claim_C10 :
    (∀ search name : String, search.toList.contains '*' = false →
      matchOne name search = .ok (name == search)) ∧
    (∀ p : List Char, compilePat ('?' :: p) = .any :: compilePatFuel p.length p) ∧
    (∀ (c : Char) (toks : List GlobTok) (s : List Char),
      tokMatch (.any :: toks) (c :: s) = tokMatch toks s) ∧
    (∀ (neg : Bool) (mem : List Char) (toks : List GlobTok) (c : Char) (s : List Char),
      tokMatch (.cls neg mem :: toks) (c :: s) =
        ((memberMatch mem c != neg) && tokMatch toks s)) ∧
    matchSym (some "ab") ["a?"] = .ok false ∧
    matchSym (some "a?") ["a?"] = .ok true ∧
    matchSym (some "ab") ["a?*"] = .ok true ∧
    matchSym (some "ab") ["a[bc]*"] = .ok true ∧
    matchSym (some "ad") ["a[bc]*"] = .ok false ∧
    matchSym (some "ad") ["a[!bc]*"] = .ok true ∧
    matchSym (some "a[bc]") ["a[bc]"] = .ok true := by
  refine ⟨?_, fun p => rfl, fun c toks s => rfl, fun neg mem toks c s => rfl,
    by decide, by decide, by decide, by decide, by decide, by decide, by decide⟩
  intro search name h
  unfold matchOne
  rw [if_pos h]

/-- Claim C10 witness: the literal-comparison statement applied to the
starless pattern `a?`. -/
theorem claim_C10_witness : matchOne "ab" "a?" = .ok ("ab" == "a?") :=
  claim_C10.1 "a?" "ab" (by decide)

/-! ### Lemmas about the import-resolution loop -/

theorem importLoop_found (fn stem : String) (fp : List String)
    (rs1 rs2 : List (List String)) (r : List String)
    (h1 : ∀ r' ∈ rs1, r'.isPrefixOf fp = false) (h2 : r.isPrefixOf fp = true) :
    importLoop fn stem fp (rs1 ++ r :: rs2) =
      "from " ++ pyJoin "." (((fp.drop r.length).dropLast) ++ [stem])
        ++ " import " ++ fn := by
  induction rs1 with
  | nil =>
    rw [List.nil_append, importLoop, if_pos h2]
  | cons a rest ih =>
    rw [List.cons_append, importLoop,
      if_neg (by rw [h1 a (List.mem_cons_self a rest)]; simp)]
    exact ih (fun r' hr' => h1 r' (List.mem_cons_of_mem a hr'))

theorem importLoop_fallback (fn stem : String) (fp : List String)
    (roots : List (List String)) (h : ∀ r ∈ roots, r.isPrefixOf fp = false) :
    importLoop fn stem fp roots = "from ." ++ stem ++ " import " ++ fn := by
  induction roots with
  | nil => rfl
  | cons a rest ih =>
    rw [importLoop, if_neg (by rw [h a (List.mem_cons_self a rest)]; simp)]
    exact ih (fun r' hr' => h r' (List.mem_cons_of_mem a hr'))

/-- Claim C7, confirmed.  The first root (in caller-given order) that is a
prefix of the resolved file path wins: the import is built from the relative
directory components joined with dots plus the extension-stripped base name;
when no root matches, the relative-import fallback `from .<basename> import
<name>` is returned.  The two concrete examples of the claim hold. -/
theorem claim_C7 :
    (∀ (fn : String) (fp : List String) (rs1 rs2 : List (List String))
      (r : List String),
      (∀ r' ∈ rs1, r'.isPrefixOf fp = false) → r.isPrefixOf fp = true →
      import_line_for_function fn fp (rs1 ++ r :: rs2) =
        "from " ++ pyJoin "." (((fp.drop r.length).dropLast) ++ [stemOf (fp.getLastD "")])
          ++ " import " ++ fn) ∧
    (∀ (fn : String) (fp : List String) (roots : List (List String)),
      (∀ r ∈ roots, r.isPrefixOf fp = false) →
      import_line_for_function fn fp roots =
        "from ." ++ stemOf (fp.getLastD "") ++ " import " ++ fn) ∧
    import_line_for_function "foo" ["root", "pkg", "mod.py"] [["root"]] =
      "from pkg.mod import foo" ∧
    import_line_for_function "foo" ["root", "pkg", "mod.py"] [] =
      "from .mod import foo" :=
  ⟨fun fn fp rs1 rs2 r h1 h2 => importLoop_found fn _ fp rs1 rs2 r h1 h2,
    fun fn fp roots h => importLoop_fallback fn _ fp roots h,
    by decide, by decide⟩

/-- Claim C7 witness: the first-match-wins statement applied to a concrete
path with a non-matching root before the matching one. -/
theorem claim_C7_witness :
    import_line_for_function "foo" ["usr", "proj", "pkg", "mod.py"]
      [["nope"], ["usr", "proj"]] = "from pkg.mod import foo" := by
  have h := claim_C7.1 "foo" ["usr", "proj", "pkg", "mod.py"] [["nope"]] []
    ["usr", "proj"] (by decide) (by decide)
  exact h.trans (by decide)

/-! ### Structural lemmas about the signature loop -/

theorem argumentsList_cons (slash star i : Nat) (c : Arg) (ktl : List Arg)
    (ds : List (Option PyVal)) :
    argumentsList slash star i (c :: ktl) ds =
      sepTokens slash star i ++
        (argToken c (ds.headD Option.none) :: argumentsList slash star (i + 1) ktl ds.tail) := by
  cases ds <;> rfl

theorem plainTokens_cons (c : Arg) (ktl : List Arg) (ds : List (Option PyVal)) :
    plainTokens (c :: ktl) ds =
      argToken c (ds.headD Option.none) :: plainTokens ktl ds.tail := by
  cases ds <;> rfl

theorem argumentsList_append (slash star : Nat) (as1 : List Arg)
    (ds1 : List (Option PyVal)) (as2 : List Arg) (ds2 : List (Option PyVal))
    (i : Nat) (h : as1.length = ds1.length) :
    argumentsList slash star i (as1 ++ as2) (ds1 ++ ds2) =
      argumentsList slash star i as1 ds1
        ++ argumentsList slash star (i + as1.length) as2 ds2 := by
  induction as1 generalizing ds1 i with
  | nil =>
    cases ds1 with
    | nil => simp [argumentsList]
    | cons d ds => simp at h
  | cons a rest ih =>
    cases ds1 with
    | nil => simp at h
    | cons d ds =>
      have hlen : rest.length = ds.length := by simpa using h
      rw [List.cons_append, List.cons_append, argumentsList_cons, argumentsList_cons]
      simp only [List.headD_cons, List.tail_cons, List.length_cons]
      rw [ih ds (i + 1) hlen]
      have harith : i + 1 + rest.length = i + (rest.length + 1) := by omega
      rw [harith]
      simp [List.append_assoc]

theorem argumentsList_plain (slash star : Nat) (as : List Arg)
    (ds : List (Option PyVal)) (i : Nat)
    (hs : slash = 0 ∨ slash < i ∨ i + as.length ≤ slash)
    (ht : star = 0 ∨ star < i ∨ i + as.length ≤ star) :
    argumentsList slash star i as ds = plainTokens as ds := by
  induction as generalizing ds i with
  | nil => cases ds <;> rfl
  | cons a rest ih =>
    have hsep : sepTokens slash star i = [] := by
      have h1 : ¬(slash ≠ 0 ∧ i = slash) := by
        rintro ⟨hne, rfl⟩
        simp only [List.length_cons] at hs
        omega
      have h2 : ¬(star ≠ 0 ∧ i = star) := by
        rintro ⟨hne, rfl⟩
        simp only [List.length_cons] at ht
        omega
      simp [sepTokens, h1, h2]
    have hs' : slash = 0 ∨ slash < i + 1 ∨ i + 1 + rest.length ≤ slash := by
      simp only [List.length_cons] at hs
      omega
    have ht' : star = 0 ∨ star < i + 1 ∨ i + 1 + rest.length ≤ star := by
      simp only [List.length_cons] at ht
      omega
    rw [argumentsList_cons, plainTokens_cons, hsep, List.nil_append,
      ih ds.tail (i + 1) hs' ht']

theorem defaultsList_length (a : Arguments) :
    (allArgs a).length ≤ (defaultsList a).length := by
  simp only [defaultsList, List.length_append, List.length_replicate, List.length_map]
  omega

/-! ### Example declarations for claims C2 and C3 -/

/-- Example for C2's counterexample: `def f(a, /): ...` (one positional-only
parameter and nothing after it). -/
def exSlashOnly : FunctionNode :=
  ⟨"f", ⟨[⟨"a", Option.none⟩], [], [], [], [], Option.none, Option.none⟩,
    Option.none, false⟩

/-- Example for C2: `def f(a, /, b, *, c): ...`. -/
def exSlashStar : FunctionNode :=
  ⟨"f", ⟨[⟨"a", Option.none⟩], [⟨"b", Option.none⟩], [⟨"c", Option.none⟩], [],
    [Option.none], Option.none, Option.none⟩, Option.none, false⟩

/-- Example for C2: `def f(a, *args, b): ...` (keyword-only after
var-positional). -/
def exStarArgs : FunctionNode :=
  ⟨"f", ⟨[], [⟨"a", Option.none⟩], [⟨"b", Option.none⟩], [], [Option.none],
    some ⟨"args", Option.none⟩, Option.none⟩, Option.none, false⟩

/-- Claim C2, counterexample.  `def f(a, /): ...` has a positional-only
parameter, but its rendering is `def f(a)` - no `/` token anywhere - because
the loop only reaches index `len(posonlyargs)` when a further parameter
exists. -/
theorem claim_C2_counterexample :
    function_definition exSlashOnly = "def f(a)" ∧
    "def f(a)".toList.contains '/' = false := by
  exact ⟨by decide, by decide⟩

/-- The tokens of a parameter list that starts with the positional-only
block and continues with at least one more parameter: the positional-only
tokens, then the bare `/`, then the rest. -/
theorem tokensSlash (star : Nat) (p rest : List Arg) (ds : List (Option PyVal))
    (hp : p ≠ []) (hrest : rest ≠ []) (hstar : p.length ≤ star)
    (hds : p.length ≤ ds.length) :
    ∃ post, argumentsList p.length star 0 (p ++ rest) ds =
      plainTokens p (ds.take p.length) ++ "/" :: post := by
  have hn0 : p.length ≠ 0 := by
    simpa using fun hc => hp (List.length_eq_zero.mp hc)
  have htake : p.length = (ds.take p.length).length := by
    rw [List.length_take]
    omega
  have hsplit : argumentsList p.length star 0 (p ++ rest) ds =
      argumentsList p.length star 0 p (ds.take p.length) ++
        argumentsList p.length star (0 + p.length) rest (ds.drop p.length) := by
    conv_lhs => rw [← List.take_append_drop p.length ds]
    exact argumentsList_append _ _ _ _ _ _ 0 htake
  have hplain : argumentsList p.length star 0 p (ds.take p.length) =
      plainTokens p (ds.take p.length) := by
    apply argumentsList_plain
    · right; right; omega
    · by_cases h0 : star = 0
      · left; exact h0
      · right; right; omega
  obtain ⟨r, rtl, hr⟩ : ∃ r rtl, rest = r :: rtl := by
    rcases rest with _ | ⟨r, rtl⟩
    · exact absurd rfl hrest
    · exact ⟨r, rtl, rfl⟩
  have hsep : sepTokens p.length star (0 + p.length) =
      "/" :: (if star ≠ 0 ∧ 0 + p.length = star then ["*"] else []) := by
    unfold sepTokens
    rw [if_pos ⟨hn0, by omega⟩]
    rfl
  rw [hsplit, hplain, hr, argumentsList_cons, hsep]
  refine ⟨(if star ≠ 0 ∧ 0 + p.length = star then ["*"] else []) ++
    (argToken r ((ds.drop p.length).headD Option.none) ::
      argumentsList p.length star (0 + p.length + 1) rtl (ds.drop p.length).tail), ?_⟩
  simp

/-- The tokens of a parameter list that ends with a nonempty keyword-only
block preceded by at least one parameter: some prefix, then the bare `*`,
then the keyword-only tokens. -/
theorem tokensStar (slash : Nat) (front kw : List Arg) (ds : List (Option PyVal))
    (hkw : kw ≠ []) (hf0 : front.length ≠ 0) (hslash : slash ≤ front.length)
    (hds : front.length ≤ ds.length) :
    ∃ pre, argumentsList slash front.length 0 (front ++ kw) ds =
      pre ++ "*" :: plainTokens kw (ds.drop front.length) := by
  have htake : front.length = (ds.take front.length).length := by
    rw [List.length_take]
    omega
  have hsplit : argumentsList slash front.length 0 (front ++ kw) ds =
      argumentsList slash front.length 0 front (ds.take front.length) ++
        argumentsList slash front.length (0 + front.length) kw
          (ds.drop front.length) := by
    conv_lhs => rw [← List.take_append_drop front.length ds]
    exact argumentsList_append _ _ _ _ _ _ 0 htake
  obtain ⟨c, ktl, hk⟩ : ∃ c ktl, kw = c :: ktl := by
    rcases kw with _ | ⟨c, ktl⟩
    · exact absurd rfl hkw
    · exact ⟨c, ktl, rfl⟩
  have hsepstar : (if front.length ≠ 0 ∧ 0 + front.length = front.length
      then ["*"] else ([] : List String)) = ["*"] := if_pos ⟨hf0, by omega⟩
  have hsep : sepTokens slash front.length (0 + front.length) =
      (if slash ≠ 0 ∧ 0 + front.length = slash then ["/"] else []) ++ ["*"] := by
    unfold sepTokens
    rw [hsepstar]
  have hplaintail : argumentsList slash front.length (0 + front.length + 1) ktl
      (ds.drop front.length).tail =
      plainTokens ktl (ds.drop front.length).tail := by
    apply argumentsList_plain
    · by_cases h0 : slash = 0
      · left; exact h0
      · right; left; omega
    · right; left; omega
  rw [hsplit, hk, argumentsList_cons, hsep, hplaintail, plainTokens_cons]
  refine ⟨argumentsList slash front.length 0 front (ds.take front.length) ++
    (if slash ≠ 0 ∧ 0 + front.length = slash then ["/"] else []), ?_⟩
  simp

/-- Claim C2 as amended: the bare `/` appears immediately after the last
positional-only parameter's token exactly when at least one positional-only
parameter exists and at least one further parameter follows it in
`posonlyargs ++ args ++ kwonlyargs`; the bare `*` appears immediately before
the first keyword-only parameter's token exactly when at least one
keyword-only parameter exists and at least one parameter precedes it,
regardless of any var-positional parameter (which is appended after the
loop); the claim's example `def f(a, /, b, *, c)` renders exactly, and
`def f(a, *args, b)` renders as `def f(a, *, b, *args)`. -/
theorem claim_C2 :
    (∀ a : Arguments, a.posonlyargs ≠ [] →
      a.posonlyargs.length < (allArgs a).length →
      ∃ post, functionTokens a =
        plainTokens a.posonlyargs ((defaultsList a).take a.posonlyargs.length)
          ++ "/" :: post) ∧
    (∀ a : Arguments, a.kwonlyargs ≠ [] →
      (allArgs a).length - a.kwonlyargs.length ≠ 0 →
      ∃ pre, functionTokens a =
        pre ++ "*" :: plainTokens a.kwonlyargs
          ((defaultsList a).drop ((allArgs a).length - a.kwonlyargs.length))) ∧
    function_definition exSlashStar = "def f(a, /, b, *, c)" ∧
    function_definition exStarArgs = "def f(a, *, b, *args)" := by
  refine ⟨?_, ?_, by decide, by decide⟩
  · intro a hne hlt
    have hm : (allArgs a).length =
        a.posonlyargs.length + a.args.length + a.kwonlyargs.length := by
      simp only [allArgs, List.length_append]
    have hrest : a.args ++ a.kwonlyargs ≠ [] := by
      intro hc
      have : (a.args ++ a.kwonlyargs).length = 0 := by rw [hc]; rfl
      rw [List.length_append] at this
      omega
    have hds : a.posonlyargs.length ≤ (defaultsList a).length := by
      have := defaultsList_length a
      omega
    rw [functionTokens,
      show allArgs a = a.posonlyargs ++ (a.args ++ a.kwonlyargs) by
        simp [allArgs]]
    exact tokensSlash _ _ _ _ hne hrest
      (by simp only [List.length_append]; omega) hds
  · intro a hkne hst0
    have hm : (allArgs a).length =
        a.posonlyargs.length + a.args.length + a.kwonlyargs.length := by
      simp only [allArgs, List.length_append]
    have hsteq : (allArgs a).length - a.kwonlyargs.length =
        (a.posonlyargs ++ a.args).length := by
      rw [List.length_append]
      omega
    have hds : (a.posonlyargs ++ a.args).length ≤ (defaultsList a).length := by
      have := defaultsList_length a
      rw [List.length_append]
      omega
    rw [functionTokens, hsteq]
    apply tokensStar
    · exact hkne
    · rw [hsteq] at hst0
      exact hst0
    · simp only [List.length_append]
      omega
    · exact hds

/-- Claim C2 witness: the two amended statements applied to the concrete
declaration `def f(a, /, b, *, c)`. -/
theorem claim_C2_witness :
    (∃ post, functionTokens exSlashStar.args =
      plainTokens exSlashStar.args.posonlyargs
        ((defaultsList exSlashStar.args).take exSlashStar.args.posonlyargs.length)
        ++ "/" :: post) ∧
    (∃ pre, functionTokens exSlashStar.args =
      pre ++ "*" :: plainTokens exSlashStar.args.kwonlyargs
        ((defaultsList exSlashStar.args).drop
          ((allArgs exSlashStar.args).length - exSlashStar.args.kwonlyargs.length))) :=
  ⟨claim_C2.1 exSlashStar.args (by simp [exSlashStar]) (by decide),
    claim_C2.2.1 exSlashStar.args (by simp [exSlashStar]) (by decide)⟩

/-! ### Lemmas relating the rendered defaults to the spec's renderDefault -/

/-- The composed source-side rendering of a default (evaluate, quote strings,
fall back to identifier or `...`, then format) agrees with the spec-side
`renderDefault`. -/
theorem renderDefault_eq (e : PyExpr) : pyStr (evalDefault e) = renderDefault_spec e := by
  cases e with
  | name id => rfl
  | constant v => cases v <;> rfl
  | subscript v s => rfl
  | index v => rfl
  | tuple elts =>
    simp only [renderDefault_spec, evalDefault]
    rcases hl : literal_eval (PyExpr.tuple elts) with _ | v
    · rfl
    · cases v <;> rfl
  | list elts =>
    simp only [renderDefault_spec, evalDefault]
    rcases hl : literal_eval (PyExpr.list elts) with _ | v
    · rfl
    · cases v <;> rfl
  | usub op =>
    rcases op with id | v | _ | _ | _ | _ | _ | _
    · rfl
    · cases v <;> rfl
    all_goals rfl
  | other kind => rfl

theorem paramToken_none (a : Arg) :
    paramToken_spec a Option.none = argToken a Option.none := by
  simp [paramToken_spec, argToken]

theorem paramToken_some (a : Arg) (e : PyExpr)
    (ht : pyTruthy (evalDefault e) = true) :
    argToken a (some (evalDefault e)) = paramToken_spec a (some e) := by
  simp [argToken, paramToken_spec, ht, renderDefault_eq, String.append_assoc]

theorem plainTokens_append (as1 : List Arg) (ds1 : List (Option PyVal))
    (as2 : List Arg) (ds2 : List (Option PyVal)) (h : as1.length = ds1.length) :
    plainTokens (as1 ++ as2) (ds1 ++ ds2) =
      plainTokens as1 ds1 ++ plainTokens as2 ds2 := by
  induction as1 generalizing ds1 with
  | nil =>
    cases ds1 with
    | nil => rfl
    | cons d ds => simp at h
  | cons a rest ih =>
    cases ds1 with
    | nil => simp at h
    | cons d ds =>
      have hlen : rest.length = ds.length := by simpa using h
      simp only [List.cons_append, plainTokens]
      exact congrArg _ (ih ds hlen)

/-- Over a parameter block aligned with `none` entries, the loop token is the
spec token for a parameter without a default. -/
theorem plainTokens_replicate (params : List Arg) :
    plainTokens params (List.replicate params.length Option.none) =
      List.zipWith paramToken_spec params
        (List.replicate params.length Option.none) := by
  induction params with
  | nil => rfl
  | cons a rest ih =>
    simp only [List.length_cons, List.replicate_succ, plainTokens, List.zipWith_cons_cons,
      ih, paramToken_none]

/-- Over a parameter block aligned one-to-one with truthy-evaluating default
expressions, the loop token is the spec token with `=` and the rendered
default. -/
theorem plainTokens_defaults (params : List Arg) (ds : List PyExpr)
    (hlen : params.length = ds.length)
    (ht : ∀ e ∈ ds, pyTruthy (evalDefault e) = true) :
    plainTokens params (ds.map (fun d => some (evalDefault d))) =
      List.zipWith paramToken_spec params (ds.map some) := by
  induction params generalizing ds with
  | nil =>
    cases ds with
    | nil => rfl
    | cons d dtl => simp at hlen
  | cons a rest ih =>
    cases ds with
    | nil => simp at hlen
    | cons d dtl =>
      have hlen' : rest.length = dtl.length := by simpa using hlen
      have ht' : ∀ e ∈ dtl, pyTruthy (evalDefault e) = true :=
        fun e he => ht e (List.mem_cons_of_mem d he)
      simp only [List.map_cons, plainTokens, List.zipWith_cons_cons,
        ih dtl hlen' ht', paramToken_some a d (ht d (List.mem_cons_self d dtl))]

/-- Alignment of the loop's padded defaults with the spec's right-aligned
defaults, over a parameter list that is at least as long as the defaults
list. -/
theorem plainTokens_aligned (params : List Arg) (ds : List PyExpr)
    (hlen : ds.length ≤ params.length)
    (ht : ∀ e ∈ ds, pyTruthy (evalDefault e) = true) :
    plainTokens params (List.replicate (params.length - ds.length) Option.none
        ++ ds.map (fun d => some (evalDefault d))) =
      List.zipWith paramToken_spec params (alignedDefaults_spec params ds) := by
  obtain ⟨A, B, hP, hA, hB⟩ : ∃ A B, params = A ++ B ∧
      A.length = params.length - ds.length ∧ B.length = ds.length :=
    ⟨params.take (params.length - ds.length), params.drop (params.length - ds.length),
      (List.take_append_drop _ _).symm,
      by rw [List.length_take]; omega,
      by rw [List.length_drop]; omega⟩
  subst hP
  unfold alignedDefaults_spec
  have hrep : (A ++ B).length - ds.length = A.length := by
    rw [List.length_append]
    omega
  rw [hrep,
    plainTokens_append A (List.replicate A.length Option.none) B
      (ds.map fun d => some (evalDefault d)) (by rw [List.length_replicate]),
    List.zipWith_append _ _ _ _ _ (by rw [List.length_replicate]),
    plainTokens_replicate, plainTokens_defaults B ds hB ht]

/-! ### Example declarations for claim C3 -/

/-- Example for C3's counterexample: `def f(a, b=2, *, c): ...` - the
positional default `2` belongs to `b`, and `c` (keyword-only, no default)
must render bare. -/
def exShifted : FunctionNode :=
  ⟨"f", ⟨[], [⟨"a", Option.none⟩, ⟨"b", Option.none⟩], [⟨"c", Option.none⟩],
    [.constant (.int 2)], [Option.none], Option.none, Option.none⟩,
    Option.none, false⟩

/-- Example for C3: `def f(a, b=2, c=3): ...` (from the repository's own
test-suite). -/
def exDefaults : FunctionNode :=
  ⟨"f", ⟨[], [⟨"a", Option.none⟩, ⟨"b", Option.none⟩, ⟨"c", Option.none⟩],
    [], [.constant (.int 2), .constant (.int 3)], [], Option.none, Option.none⟩,
    Option.none, false⟩

/-- Claim C3, counterexample.  In `def f(a, b=2, *, c): ...` the parameter
`b` has default `2` and `c` has none, yet the rendering is
`def f(a, b, *, c=2)`: the defaults list is right-aligned against the full
parameter list including keyword-only parameters, so the default shifts from
`b` onto `c` - `b`'s token lacks its `=2` and `c`'s token wrongly gains one
(and keyword-only defaults in `kw_defaults` are never read at all). -/
theorem claim_C3_counterexample :
    function_definition exShifted = "def f(a, b, *, c=2)" ∧
    "def f(a, b, *, c=2)" ≠ "def f(a, b=2, *, c)" := by
  exact ⟨by decide, by decide⟩

/-- Claim C3 as amended: the `=`-rendering follows the claim only for the
positional defaults in the aligned regime - for a function whose parameters
are all positional-or-keyword and whose defaults evaluate truthy, each
parameter token carries `"=" ++ renderDefault(default)` exactly when the
right-aligned positional default exists, with `renderDefault` as the claim
states it (literal constants as their value with strings double-quoted,
identifiers as themselves, anything else `...`).  When keyword-only
parameters exist the alignment spans them (shifting positional defaults onto
keyword-only parameters, whose own `kw_defaults` are ignored), and a falsy
evaluated default (`0`, `False`, `None`, `""`) renders without its `=` part. -/
theorem claim_C3 :
    (∀ a : Arguments,
      a.posonlyargs = [] → a.kwonlyargs = [] →
      a.defaults.length ≤ a.args.length →
      (∀ e ∈ a.defaults, pyTruthy (evalDefault e) = true) →
      functionTokens a =
        List.zipWith paramToken_spec a.args
          (alignedDefaults_spec a.args a.defaults)) ∧
    function_definition exDefaults = "def f(a, b=2, c=3)" ∧
    (∀ (a : Arg) (v : PyVal), pyTruthy v = false → argToken a (some v) = argToken a Option.none) := by
  refine ⟨?_, by decide, ?_⟩
  · intro a h1 h2 hlen ht
    have hall : allArgs a = a.args := by simp [allArgs, h1, h2]
    have hdl : defaultsList a =
        List.replicate (a.args.length - a.defaults.length) Option.none
          ++ a.defaults.map (fun d => some (evalDefault d)) := by
      simp [defaultsList, hall]
    rw [functionTokens, hall, hdl, h1, h2]
    simp only [List.length_nil, Nat.sub_zero]
    rw [argumentsList_plain 0 a.args.length a.args _ 0 (Or.inl rfl)
      (by right; right; omega)]
    exact plainTokens_aligned a.args a.defaults hlen ht
  · intro a v hv
    simp [argToken, hv]

/-- Claim C3 witness: the amended statement applied to the concrete
declaration `def f(a, b=2, c=3)`. -/
theorem claim_C3_witness :
    functionTokens exDefaults.args =
      List.zipWith paramToken_spec exDefaults.args.args
        (alignedDefaults_spec exDefaults.args.args exDefaults.args.defaults) :=
  claim_C3.1 exDefaults.args rfl rfl (by decide) (by decide)

/-! ### String and join lemmas for the class-header assembly -/

theorem pyJoin_cons_cons (sep x y : String) (rest : List String) :
    pyJoin sep (x :: y :: rest) = x ++ sep ++ pyJoin sep (y :: rest) := rfl

theorem str_eq_empty_of_length (s : String) (h : s.length = 0) : s = "" := by
  cases s with
  | mk data =>
    have h' : data.length = 0 := h
    have : data = [] := List.length_eq_zero.mp h'
    rw [this]

theorem str_append_ne_left (s t : String) (hs : s ≠ "") : s ++ t ≠ "" := by
  intro hc
  have hlen := congrArg String.length hc
  rw [String.length_append] at hlen
  exact hs (str_eq_empty_of_length s (by simpa using Nat.eq_zero_of_add_eq_zero_right hlen))

theorem str_append_ne_right (s t : String) (ht : t ≠ "") : s ++ t ≠ "" := by
  intro hc
  have hlen := congrArg String.length hc
  rw [String.length_append] at hlen
  exact ht (str_eq_empty_of_length t (by simpa using Nat.eq_zero_of_add_eq_zero_left hlen))

theorem pyJoin_append_both (sep : String) (xs ys : List String)
    (hx : xs ≠ []) (hy : ys ≠ []) :
    pyJoin sep (xs ++ ys) = pyJoin sep xs ++ sep ++ pyJoin sep ys := by
  induction xs with
  | nil => exact absurd rfl hx
  | cons x xtl ih =>
    cases xtl with
    | nil =>
      obtain ⟨y, ytl, rfl⟩ : ∃ y ytl, ys = y :: ytl := by
        rcases ys with _ | ⟨y, ytl⟩
        · exact absurd rfl hy
        · exact ⟨y, ytl, rfl⟩
      rfl
    | cons x2 xtl2 =>
      have hstep : pyJoin sep ((x :: x2 :: xtl2) ++ ys) =
          x ++ sep ++ pyJoin sep ((x2 :: xtl2) ++ ys) := rfl
      rw [hstep, ih (by simp), pyJoin_cons_cons]
      simp [String.append_assoc]

theorem pyJoin_ne_empty (sep : String) (l : List String) (hne : l ≠ [])
    (h : ∀ x ∈ l, x ≠ "") : pyJoin sep l ≠ "" := by
  induction l with
  | nil => exact absurd rfl hne
  | cons x xtl ih =>
    cases xtl with
    | nil => exact h x (List.mem_cons_self _ _)
    | cons x2 xtl2 =>
      rw [pyJoin_cons_cons]
      exact str_append_ne_left _ _
        (str_append_ne_left _ _ (h x (List.mem_cons_self _ _)))

/-! ### Dict lemmas for the class keywords -/

theorem foldl_dictInsert : ∀ (ks : List Keyword) (acc : List (Option String × String)),
    (∀ k ∈ ks, ∀ p ∈ acc, p.1 ≠ k.arg) →
    (ks.map (fun k => k.arg)).Nodup →
    ks.foldl (fun d k => dictInsert d k.arg (getattrId k.value)) acc =
      acc ++ ks.map (fun k => (k.arg, getattrId k.value)) := by
  intro ks
  induction ks with
  | nil =>
    intro acc _ _
    simp
  | cons k ktl ih =>
    intro acc hdisj hnodup
    rw [List.map_cons, List.nodup_cons] at hnodup
    have hany : acc.any (fun p => p.1 == k.arg) = false := by
      rw [List.any_eq_false]
      intro p hp
      simp only [beq_iff_eq]
      exact hdisj k (List.mem_cons_self _ _) p hp
    have hins : dictInsert acc k.arg (getattrId k.value) =
        acc ++ [(k.arg, getattrId k.value)] := by
      rw [dictInsert, if_neg (by rw [hany]; simp)]
    have hdisj' : ∀ k' ∈ ktl, ∀ p ∈ acc ++ [(k.arg, getattrId k.value)],
        p.1 ≠ k'.arg := by
      intro k' hk' p hp
      rcases List.mem_append.mp hp with hp1 | hp2
      · exact hdisj k' (List.mem_cons_of_mem _ hk') p hp1
      · have hp' : p = (k.arg, getattrId k.value) := by simpa using hp2
        subst hp'
        intro hc
        have hc' : k.arg = k'.arg := hc
        exact hnodup.1 (hc' ▸ List.mem_map_of_mem _ hk')
    rw [List.foldl_cons, hins, ih _ hdisj' hnodup.2]
    simp

theorem keywordsDict_nodup (ks : List Keyword)
    (h : (ks.map (fun k => k.arg)).Nodup) :
    keywordsDict ks = ks.map (fun k => (k.arg, getattrId k.value)) := by
  have := foldl_dictInsert ks [] (by intro k _ p hp; simp at hp) h
  simpa [keywordsDict] using this

theorem basesFilter_eq (bs : List PyExpr)
    (hb : ∀ b ∈ bs, ∀ id, b = PyExpr.name id → id ≠ "") :
    (bs.filterMap (fun b => match b with
      | PyExpr.name id => if id = "" then Option.none else some id
      | _ => Option.none)) =
    (bs.filterMap (fun b => match b with
      | PyExpr.name id => some id
      | _ => Option.none)) := by
  induction bs with
  | nil => rfl
  | cons b rest ih =>
    have ihh := ih (fun x hx id hid => hb x (List.mem_cons_of_mem _ hx) id hid)
    cases b
    case name id =>
      have hid := hb _ (List.mem_cons_self _ _) id rfl
      simp [List.filterMap_cons, hid, ihh]
    all_goals simp [List.filterMap_cons, ihh]

theorem joinIf_pair (A B : List String) (hA : ∀ x ∈ A, x ≠ "")
    (hB : ∀ x ∈ B, x ≠ "") :
    (if pyJoin ", " A ≠ "" ∧ pyJoin ", " B ≠ ""
      then pyJoin ", " A ++ ", " ++ pyJoin ", " B
      else if pyJoin ", " A ≠ "" then pyJoin ", " A
      else if pyJoin ", " B ≠ "" then pyJoin ", " B
      else "") = pyJoin ", " (A ++ B) := by
  rcases A with _ | ⟨a, atl⟩
  · rcases B with _ | ⟨b, btl⟩
    · simp [pyJoin]
    · have hBne := pyJoin_ne_empty ", " (b :: btl) (by simp) hB
      simp [pyJoin, hBne]
  · rcases B with _ | ⟨b, btl⟩
    · have hAne := pyJoin_ne_empty ", " (a :: atl) (by simp) hA
      simp [pyJoin, hAne]
    · have hAne := pyJoin_ne_empty ", " (a :: atl) (by simp) hA
      have hBne := pyJoin_ne_empty ", " (b :: btl) (by simp) hB
      rw [if_pos ⟨hAne, hBne⟩, pyJoin_append_both ", " _ _ (by simp) (by simp)]

theorem joinIf_meta (S : List String) (hS : ∀ x ∈ S, x ≠ "")
    (id : String) :
    pyJoin ", " S ++ (if pyJoin ", " S ≠ "" then ", " else "")
        ++ "metaclass=" ++ id =
      pyJoin ", " (S ++ ["metaclass=" ++ id]) := by
  rcases S with _ | ⟨s, stl⟩
  · simp [pyJoin, String.append_assoc]
  · have hne := pyJoin_ne_empty ", " (s :: stl) (by simp) hS
    rw [if_pos hne, pyJoin_append_both ", " _ _ (by simp) (by simp)]
    show _ = pyJoin ", " (s :: stl) ++ ", " ++ ("metaclass=" ++ id)
    simp only [String.append_assoc]

theorem parenIf (items : List String) (hi : ∀ x ∈ items, x ≠ "") :
    (if pyJoin ", " items ≠ "" then "(" ++ pyJoin ", " items ++ ")" else "") =
      (if items = [] then "" else "(" ++ pyJoin ", " items ++ ")") := by
  rcases items with _ | ⟨x, xtl⟩
  · simp [pyJoin]
  · have hne := pyJoin_ne_empty ", " (x :: xtl) (by simp) hi
    rw [if_pos hne, if_neg (by simp)]

/-- Claim C4, confirmed (for class statements as Python produces them:
keyword names are unique, and the `metaclass` value - when the claim's
rendering `metaclass=<simple name>` is meant - is a nonempty simple name).
The parenthesised list holds the simple-name bases in order (other base
shapes silently dropped), then every non-`metaclass` keyword argument as
`name=...`, then `metaclass=<name>` appended last; `class C(int, str)` and
`class C(metaclass=type)` render exactly as the claim says. -/
theorem claim_C4 (c : ClassNode)
    (hnodup : (c.keywords.map (fun k => k.arg)).Nodup)
    (hbase : ∀ b ∈ c.bases, ∀ id, b = PyExpr.name id → id ≠ "")
    (hmeta : ∀ k ∈ c.keywords, k.arg = some "metaclass" →
      ∃ id, id ≠ "" ∧ k.value = PyExpr.name id) :
    class_definition c = class_definition_spec c := by
  have hpop : dictPop (keywordsDict c.keywords) (some "metaclass") =
      (Option.map (fun k => getattrId k.value)
        (c.keywords.find? (fun k => k.arg == some "metaclass")),
       (c.keywords.filter (fun k => !(k.arg == some "metaclass"))).map
        (fun k => (k.arg, getattrId k.value))) := by
    rw [dictPop, keywordsDict_nodup c.keywords hnodup, List.find?_map,
      List.filter_map]
    have hc1 : ((fun p : Option String × String => p.1 == some "metaclass") ∘
        (fun k : Keyword => (k.arg, getattrId k.value))) =
        (fun k : Keyword => k.arg == some "metaclass") := rfl
    have hc2 : ((fun q : Option String × String => !(q.1 == some "metaclass")) ∘
        (fun k : Keyword => (k.arg, getattrId k.value))) =
        (fun k : Keyword => !(k.arg == some "metaclass")) := rfl
    rw [hc1, hc2]
    rcases hf : c.keywords.find? (fun k => k.arg == some "metaclass") with _ | k
    · have hall : ∀ x ∈ c.keywords, ¬((x.arg == some "metaclass") = true) :=
        fun x hx => by
          have := List.find?_eq_none.mp hf x hx
          simpa using this
      simp only [hf, Option.map_none']
      rw [List.filter_eq_self.mpr (by intro x hx; simpa using hall x hx)]
    · simp only [hf, Option.map_some']
  have hA : ∀ x ∈ c.bases.filterMap (fun b => match b with
      | PyExpr.name id => some id
      | _ => Option.none), x ≠ "" := by
    intro x hx
    rw [List.mem_filterMap] at hx
    obtain ⟨b, hb, hfb⟩ := hx
    cases b <;> simp at hfb
    exact hfb ▸ hbase _ hb _ rfl
  have hB : ∀ x ∈ (c.keywords.filter (fun k => !(k.arg == some "metaclass"))).map
      (fun k => optStr k.arg ++ "=..."), x ≠ "" := by
    intro x hx
    rw [List.mem_map] at hx
    obtain ⟨k, hk, rfl⟩ := hx
    exact str_append_ne_right _ _ (by decide)
  simp only [class_definition, class_definition_spec, hpop,
    basesFilter_eq c.bases hbase, List.map_map]
  have hcomp : ((fun p => optStr p.1 ++ "=...") ∘
      (fun k => (k.arg, getattrId k.value))) =
      (fun k : Keyword => optStr k.arg ++ "=...") := rfl
  rw [hcomp]
  rcases hf : c.keywords.find? (fun k => k.arg == some "metaclass") with _ | k
  · simp only [hf, Option.map_none']
    rw [joinIf_pair _ _ hA hB, List.append_nil, parenIf _ (by
      intro x hx
      rcases List.mem_append.mp hx with h1 | h1
      · exact hA x h1
      · exact hB x h1)]
  · obtain ⟨id, hid, hval⟩ := hmeta k (List.mem_of_find?_eq_some hf) (by
      have := List.find?_some hf
      simpa using this)
    simp only [hf, Option.map_some']
    rw [hval]
    simp only [getattrId, annotation_definition]
    rw [if_pos hid, joinIf_pair _ _ hA hB, joinIf_meta _ (by
        intro x hx
        rcases List.mem_append.mp hx with h1 | h1
        · exact hA x h1
        · exact hB x h1) id,
      List.append_assoc]
    rw [parenIf _ (by
      intro x hx
      rcases List.mem_append.mp hx with h1 | h1
      · exact hA x h1
      · rcases List.mem_append.mp h1 with h2 | h2
        · exact hB x h2
        · have hx1 : x = "metaclass=" ++ id := by simpa using h2
          rw [hx1]
          exact str_append_ne_left _ _ (by decide))]

/-- Claim C4 witness: the general statement applied to the two concrete
classes of the claim, `class C(int, str)` and `class C(metaclass=type)`. -/
theorem claim_C4_witness :
    class_definition ⟨"C", [.name "int", .name "str"], []⟩ =
      class_definition_spec ⟨"C", [.name "int", .name "str"], []⟩ ∧
    class_definition ⟨"C", [], [⟨some "metaclass", .name "type"⟩]⟩ =
      class_definition_spec ⟨"C", [], [⟨some "metaclass", .name "type"⟩]⟩ ∧
    class_definition_spec ⟨"C", [.name "int", .name "str"], []⟩ =
      "class C(int, str)" ∧
    class_definition_spec ⟨"C", [], [⟨some "metaclass", .name "type"⟩]⟩ =
      "class C(metaclass=type)" :=
  ⟨claim_C4 ⟨"C", [.name "int", .name "str"], []⟩ (by simp)
      (by
        intro b hb id hid
        subst hid
        simp only [List.mem_cons, List.not_mem_nil, or_false,
          PyExpr.name.injEq] at hb
        rcases hb with rfl | rfl <;> decide)
      (by intro k hk; simp at hk),
    claim_C4 ⟨"C", [], [⟨some "metaclass", .name "type"⟩]⟩ (by simp)
      (by intro b hb; simp at hb)
      (by
        intro k hk hmk
        simp only [List.mem_singleton] at hk
        subst hk
        exact ⟨"type", by decide, rfl⟩),
    by decide, by decide⟩

end Symbex
